import Mathlib

/-!
Shallow embedding of the lead-scraping engine (`lead_scraper.py`) and proofs
about its deduplication/validation pipeline, its scrape loops, its retry
wrapper and its profile-URL validator.

Modelling conventions:
* A scraped record (a Python `dict[str, str]`) becomes `RawLead`.  Both record
  shapes produced by the source carry the keys `Business Name`, `Phone Number`
  and `Website`; the map-listing shape (built in `scrape_listing_details`,
  lines 175-180) additionally carries `Address` and no `Email` key, while the
  dork shapes carry `Email` (and a `Source` tag that no claim reads).  The
  optional `Email` key is modelled as `email : Option String` with `none`
  meaning "key absent" (a pandas `NaN` cell once the frames are built); the
  always-present string keys are plain `String` fields.
* `process_and_clean_data` builds a pandas DataFrame; fallible column access
  (`df["Email"]` raising `KeyError` when no input dict had the key) is
  modelled with `Except String`.
* The browser-driven scroll/page loops are modelled as functions of the
  sequence of page contents the browser would have produced: one event per
  loop iteration.  An uncaught exception inside the loop (the page being lost
  mid-run) is `Except.error ()`: the Python function never returns, so the
  locally accumulated list is not part of the error.
-/

namespace LeadScraper

/-- One scraped record.  `email = none` models a dict without the
`"Email"` key (map-listing shape); `email = some s` models the key
being present with string value `s` (dork shapes). -/
structure RawLead where
  businessName : String
  phoneNumber : String
  website : String
  address : String
  email : Option String
deriving Repr, DecidableEq

/-- The dict literal built by `scrape_listing_details` (lines 175-180):
keys `Business Name`, `Phone Number`, `Website`, `Address` and no
`Email` key. -/
def mkListingLead (name phone website addr : String) : RawLead :=
  ⟨name, phone, website, addr, none⟩

/-- `"Email" in df.columns` (line 1070): the DataFrame built from a list of
dicts has an `Email` column exactly when some input dict has the key. -/
def emailColumnExists (raw : List RawLead) : Bool :=
  raw.any (fun r => r.email.isSome)

/-- The condition at lines 1069-1073 selecting the email-dedup branch:
`"Email" in df.columns and df["Email"].notna().any() and (df["Email"] != "").any()`.
Rows whose dict lacked the key hold `NaN`, which is not-NA-false but
compares `!= ""` as True in pandas. -/
def emailBranch (raw : List RawLead) : Bool :=
  emailColumnExists raw &&
  raw.any (fun r => r.email.isSome) &&
  raw.any (fun r =>
    match r.email with
    | none => true
    | some e => e != "")

/-- `df.drop_duplicates(subset=[k], keep="first")`: keep the first row for
each key value (pandas treats `NaN` keys as equal to each other). -/
def dedupByKey {α κ : Type} [DecidableEq κ] (key : α → κ) : List α → List κ → List α
  | [], _ => []
  | r :: rs, seen =>
    if key r ∈ seen then dedupByKey key rs seen
    else r :: dedupByKey key rs (key r :: seen)

/-- Lines 1069-1076: dedup by `Email` when the email branch is selected,
otherwise by `Website`. -/
def dedupStep (raw : List RawLead) : List RawLead :=
  if emailBranch raw then dedupByKey (fun r => r.email) raw []
  else dedupByKey (fun r => r.website) raw []

/-- The `has_contact` predicate of lines 1078-1082 (`fillna("")` maps the
`NaN` of a missing `Email` cell to the empty string). -/
def hasContact (r : RawLead) : Bool :=
  r.phoneNumber.length > 0 || r.website.length > 0 || (r.email.getD "").length > 0

/-- The characters kept by `re.sub(r"[^\d\+]", "", phone)` (line 1089). -/
def phoneKeptChar (c : Char) : Bool :=
  c.isDigit || c == '+'

/-- `validate_phone` (lines 1086-1092).  Phone cells are always strings in
both record shapes, so the `pd.isna` guard only fires for `""`. -/
def validate_phone (phone : String) : String :=
  if phone = "" then phone
  else
    let cleaned := phone.toList.filter phoneKeptChar
    if 10 ≤ cleaned.length ∧ cleaned.length ≤ 15 then phone else ""

/-- Line 1094: `df["Phone Number"] = df["Phone Number"].apply(validate_phone)`. -/
def applyPhone (r : RawLead) : RawLead :=
  { r with phoneNumber := validate_phone r.phoneNumber }

/-- A DataFrame result: its column list and its rows. -/
structure CleanFrame where
  columns : List String
  rows : List RawLead
deriving Repr, DecidableEq

/-- Columns of the non-empty-input output frame under this record model:
the four always-present keys, plus `Email` when any record carried it. -/
def outputColumns (raw : List RawLead) : List String :=
  ["Business Name", "Phone Number", "Website", "Address"] ++
    (if emailColumnExists raw then ["Email"] else [])

/-- `process_and_clean_data` (lines 1060-1098).  The empty input returns the
fixed five-column empty frame (lines 1062-1065).  Otherwise: single-key
dedup (lines 1069-1076), then the contact-presence filter — whose
unconditional `df["Email"]` access (line 1081) raises `KeyError` when no
input record carried the key — then `validate_phone` over the phone column,
then the non-empty-business-name filter (lines 1094-1096). -/
def process_and_clean_data (raw : List RawLead) : Except String CleanFrame :=
  if raw.isEmpty then
    .ok ⟨["Business Name", "Phone Number", "Website", "Address", "Email"], []⟩
  else
    let df1 := dedupStep raw
    if emailColumnExists raw then
      let df2 := df1.filter hasContact
      let df3 := (df2.map applyPhone).filter (fun r => r.businessName.length > 0)
      .ok ⟨outputColumns raw, df3⟩
    else
      .error "KeyError: Email"

/-- Rows of a pipeline outcome (empty when the pipeline raised). -/
def rowsOf (x : Except String CleanFrame) : List RawLead :=
  match x with
  | .ok f => f.rows
  | .error _ => []

/-- Python's `sub in s` substring test. -/
def strContains (s pat : String) : Bool :=
  decide (pat.toList <:+: s.toList)

/-- Python's `.lower()` (ASCII range, which covers every string these
claims touch). -/
def strLower (s : String) : String :=
  String.mk (s.toList.map Char.toLower)

/-- Python's `.strip()`. -/
def strTrim (s : String) : String :=
  String.mk
    (((s.toList.dropWhile Char.isWhitespace).reverse.dropWhile
      Char.isWhitespace).reverse)

/-- Python's `.endswith(suffix)`. -/
def strEndsWith (s suffix : String) : Bool :=
  suffix.toList.isSuffixOf s.toList

/-- Python's `.startswith(pre)`. -/
def strStartsWith (s pre : String) : Bool :=
  pre.toList.isPrefixOf s.toList

/-- Python's `[:n]` slice. -/
def strTake (s : String) (n : Nat) : String :=
  String.mk (s.toList.take n)

/-- Denylisted path substrings for facebook URLs (lines 100-111). -/
def fbInvalid : List String :=
  ["/help/", "/login", "/accounts/", "/photo", "/video", "/story", "/groups/",
   "/pages/", "/apps/", "/events/"]

/-- Denylisted path substrings for instagram URLs (lines 117-142). -/
def instaInvalid : List String :=
  ["/help/", "/login", "/accounts/", "/reels/", "/reel/", "/p/", "/popular/",
   "/explore/", "/about-us/", "/?hl=", "/tags/", "/stories/", "/direct/",
   "/settings/", "/notifications/", "/search/", "/activity/", "/archive/",
   "/fundraiser/", "/ads/", "/business/", "/developers/", "/legal/", "/about/"]

/-- The character class [a-zA-Z0-9_.] of the username regex (line 145). -/
def usernameChar (c : Char) : Bool :=
  c.isAlpha || c.isDigit || c == '_' || c == '.'

/-- The maximal trailing run of username characters of `l`. -/
def usernameRun (l : List Char) : List Char :=
  (l.reverse.takeWhile usernameChar).reverse

/-- What precedes the maximal trailing username run of `l`. -/
def usernameRest (l : List Char) : List Char :=
  (l.reverse.dropWhile usernameChar).reverse

/-- Remove one trailing `/` when present (the regex's optional `/?`
before `$`). -/
def stripSlash (l : List Char) : List Char :=
  if decide (['/'] <:+ l) then l.dropLast else l

/-- `re.search` existence for `instagram\.com/([a-zA-Z0-9_.]+)/?$` over the
character list `l` (line 145): a match exists exactly when, after removing
one optional trailing slash, the maximal trailing run of username characters
is non-empty and is immediately preceded by `instagram.com/` (the character
before the run is `/`, which is outside the class, so the run ending at the
end of the string is unique and equals the greedy capture group). -/
def instaUsernameL (l : List Char) : Option (List Char) :=
  if usernameRun (stripSlash l) ≠ [] ∧
      decide ("instagram.com/".toList <:+ usernameRest (stripSlash l)) then
    some (usernameRun (stripSlash l))
  else none

/-- `is_valid_profile_url` (lines 92-152). -/
def is_valid_profile_url (url : String) : Bool :=
  if url = "" then false
  else if strContains (strLower url) "facebook.com" ||
      strContains (strLower url) "fb.com" then
    !(fbInvalid.any (fun x => strContains (strLower url) x))
  else if strContains (strLower url) "instagram.com" then
    if instaInvalid.any (fun pat => strContains (strLower url) pat) then false
    else
      match instaUsernameL (strLower url).toList with
      | some u => if 2 < u.length ∧ (u.contains '/') = false then true else false
      | none => false
  else false

/-- Modelled from the spec: Python's `url.split("?")[0]`, the
query-parameter stripping the spec's validator description prescribes. -/
def strStripQuery (s : String) : String :=
  String.mk (s.toList.takeWhile (fun c => c ≠ '?'))

/-- Modelled from the spec: the claim's described instagram acceptance —
apply the denylist, then strip query parameters and the trailing slash and
accept exactly when the remaining path is `instagram.com/` followed by one
segment matching [A-Za-z0-9_.]{3,}. -/
def claim_profile_accept (url : String) : Bool :=
  if instaInvalid.any (fun pat => strContains (strLower url) pat) then false
  else
    match instaUsernameL (strStripQuery (strLower url)).toList with
    | some u => decide (3 ≤ u.length)
    | none => false

/-- Processing of one scroll's queried listings in `scrape_google_maps`
(lines 305-323).  Each element models the outcome of
`scrape_listing_details` for one listing (`none`: it returned `None` or
raised).  A record with a non-empty business name whose stripped, lowercased
name was not seen this run is appended. -/
def processListings : List String → List RawLead → List (Option RawLead) →
    List String × List RawLead
  | seen, acc, [] => (seen, acc)
  | seen, acc, none :: rest => processListings seen acc rest
  | seen, acc, some b :: rest =>
    if b.businessName ≠ "" then
      if strLower (strTrim b.businessName) ∈ seen then processListings seen acc rest
      else processListings (strLower (strTrim b.businessName) :: seen) (acc ++ [b]) rest
    else processListings seen acc rest

/-- What one iteration of the maps scroll loop sees: the listing elements on
the page, or the loss of the page (the un-guarded `page.evaluate` inside
`human_like_scroll`, line 298, raising). -/
inductive PageEvent where
  | listings (items : List (Option RawLead)) : PageEvent
  | pageLost : PageEvent
deriving Repr, DecidableEq

/-- Scroll loop of `scrape_google_maps` (lines 290-347): one event per
iteration; the results-limit check runs only after a whole batch
(lines 345-347).  `fuel` is the remaining scroll budget
(`max_scrolls - scroll_count`).  An exhausted event list models the page
yielding nothing further, in which case the loop spins without change until
`max_scrolls` — extensionally the accumulated list is returned as is.  A
lost page raises: the Python function never returns, so the error carries
nothing and the accumulated list is lost. -/
def mapsLoop (limit : Nat) : Nat → List PageEvent → List String → List RawLead →
    Except Unit (List RawLead)
  | 0, _, _, acc => .ok acc
  | _ + 1, [], _, acc => .ok acc
  | fuel + 1, ev :: evs, seen, acc =>
    match ev with
    | .pageLost => .error ()
    | .listings items =>
      let sa := processListings seen acc items
      if limit ≤ sa.2.length then .ok sa.2
      else mapsLoop limit fuel evs sa.1 sa.2

/-- `scrape_google_maps` (lines 260-355) as a function of page contents. -/
def scrape_google_maps (resultsLimit maxScrolls : Nat)
    (events : List PageEvent) : Except Unit (List RawLead) :=
  mapsLoop resultsLimit maxScrolls events [] []

/-- One search-result block as the dork loops see it after the DOM reads:
the `EMAIL_REGEX` findall matches over its text, the `PHONE_REGEX` findall
matches, the first link's href and the title element's text. -/
structure DorkBlock where
  emails : List String
  phones : List String
  href : Option String
  title : Option String
deriving Repr, DecidableEq

/-- `.strip()[:100]` applied to the title text when the element exists
(lines 482-487; the yahoo variant leaves the name empty otherwise). -/
def blockName (title : Option String) : String :=
  match title with
  | some t => strTake (strTrim t) 100
  | none => ""

/-- Website for the email-target branch (lines 467-480): the first link's
href when it starts with "http" and does not contain "yahoo". -/
def emailBlockWebsite (href : Option String) : String :=
  match href with
  | some h => if strStartsWith h "http" && !(strContains h "yahoo") then h else ""
  | none => ""

/-- The per-candidate loop of the email-target branch (lines 450-501): each
matched address whose lowercase form is unseen and does not end in the
placeholder domain yields one record.  The stored `Email` value is the raw
match `e` (line 463); the lowercase form is used only for the dedup set and
the placeholder test.  Dork dicts carry no `Address` key; the unused address
field is set empty here. -/
def processEmailsLoop (b : DorkBlock) : List String → List String → List RawLead →
    List String × List RawLead
  | [], seen, acc => (seen, acc)
  | e :: rest, seen, acc =>
    if !(seen.contains (strLower e)) && !(strEndsWith (strLower e) "@example.com") then
      processEmailsLoop b rest (strLower e :: seen)
        (acc ++ [⟨blockName b.title, strTrim (b.phones.headD ""),
                 emailBlockWebsite b.href, "", some e⟩])
    else processEmailsLoop b rest seen acc

/-- The email-target handling of one block (else branch, lines 449-501). -/
def processEmailBlock (b : DorkBlock) (seen : List String) (acc : List RawLead) :
    List String × List RawLead :=
  processEmailsLoop b b.emails seen acc

/-- The first-acceptable-email pick of the profile-target branch
(lines 435-440): the first candidate whose lowercase form does not end in
the placeholder domain, stored lowercased; empty when none qualifies. -/
def profileEmail : List String → String
  | [] => ""
  | e :: rest =>
    if !(strEndsWith (strLower e) "@example.com") then strLower e
    else profileEmail rest

/-- The profile-target handling of one block (lines 408-448): accept the
block when its first link passes the profile-URL validator and was not
already seen this run. -/
def processProfileBlock (b : DorkBlock) (seenP : List String)
    (acc : List RawLead) : List String × List RawLead :=
  match b.href with
  | none => (seenP, acc)
  | some href =>
    if is_valid_profile_url href then
      if seenP.contains href then (seenP, acc)
      else
        (href :: seenP,
         acc ++ [⟨blockName b.title, strTrim (b.phones.headD ""), href, "",
                  some (profileEmail b.emails)⟩])
    else (seenP, acc)

/-- The surface-specific acceptance target (`target` parameter). -/
inductive Target where
  | email
  | profile
deriving Repr, DecidableEq

/-- The per-page block loop for the email target (lines 404-504, else
branch per block). -/
def processBlocksE : List String → List RawLead → List DorkBlock →
    List String × List RawLead
  | seenE, acc, [] => (seenE, acc)
  | seenE, acc, b :: rest =>
    let r := processEmailBlock b seenE acc
    processBlocksE r.1 r.2 rest

/-- The per-page block loop for the profile target (lines 404-448 per
block). -/
def processBlocksP : List String → List RawLead → List DorkBlock →
    List String × List RawLead
  | seenP, acc, [] => (seenP, acc)
  | seenP, acc, b :: rest =>
    let r := processProfileBlock b seenP acc
    processBlocksP r.1 r.2 rest

/-- Processing of all result blocks on one page (lines 404-504).  The
`target` test sits inside the per-block loop in the source but is constant
through a run, so dispatching once is extensionally identical. -/
def processBlocks (target : Target) (seenE seenP : List String)
    (acc : List RawLead) (blocks : List DorkBlock) :
    List String × List String × List RawLead :=
  match target with
  | .email =>
    let r := processBlocksE seenE acc blocks
    (r.1, seenP, r.2)
  | .profile =>
    let r := processBlocksP seenP acc blocks
    (seenE, r.1, r.2)

/-- What one iteration of the dork page loop sees: the result blocks on the
page plus whether the advance to the next page succeeds (`next_clicked`,
lines 511-572), or the loss of the page at the un-guarded calls. -/
inductive DorkEvent where
  | blocksPage (blocks : List DorkBlock) (advanceOk : Bool) : DorkEvent
  | pageLost : DorkEvent
deriving Repr, DecidableEq

/-- Page loop of `scrape_yahoo_dork` (lines 394-588): per iteration, process
all blocks, then the limit check (lines 576-578), then the loop breaks
unless the advance succeeded (lines 580-588; on the final allowed iteration
no advance is attempted, which only reinforces termination). -/
def dorkLoop (limit : Nat) (target : Target) :
    Nat → List DorkEvent → List String → List String → List RawLead →
      Except Unit (List RawLead)
  | 0, _, _, _, acc => .ok acc
  | _ + 1, [], _, _, acc => .ok acc
  | fuel + 1, ev :: evs, seenE, seenP, acc =>
    match ev with
    | .pageLost => .error ()
    | .blocksPage blocks advanceOk =>
      let r := processBlocks target seenE seenP acc blocks
      if limit ≤ r.2.2.length then .ok r.2.2
      else if advanceOk then dorkLoop limit target fuel evs r.1 r.2.1 r.2.2
      else .ok r.2.2

/-- `scrape_yahoo_dork` (lines 358-596) as a function of page contents; the
bing and google dork variants (lines 599-1057) share this control flow. -/
def scrape_yahoo_dork (resultsLimit maxScrolls : Nat) (target : Target)
    (events : List DorkEvent) : Except Unit (List RawLead) :=
  dorkLoop resultsLimit target maxScrolls events [] [] []

/-- `main` (lines 1262-1298): `raw_results` starts `[]`; when the chosen
scraper raises, the exception is caught at lines 1295-1298 and `raw_results`
keeps its initial empty value — the list accumulated inside the scraper was
local to it and is lost. -/
def main_collect (runOutcome : Except Unit (List RawLead)) : List RawLead :=
  match runOutcome with
  | .ok r => r
  | .error _ => []

/-- Lines 1300-1307: with no raw results `main` returns before the
pipeline; otherwise the pipeline runs on them. -/
def main_pipeline (runOutcome : Except Unit (List RawLead)) :
    Option (Except String CleanFrame) :=
  let raw := main_collect runOutcome
  if raw.isEmpty then none else some (process_and_clean_data raw)

/-- Listing elements one scroll iteration offers. -/
def pageSize : PageEvent → Nat
  | .listings items => items.length
  | .pageLost => 0

/-- Largest batch a maps run can accept in one iteration. -/
def maxPageSize (events : List PageEvent) : Nat :=
  (events.map pageSize).foldr max 0

/-- Upper bound on the records one dork block can contribute. -/
def blockCap (target : Target) (b : DorkBlock) : Nat :=
  match target with
  | .email => b.emails.length
  | .profile => 1

/-- Upper bound on the records one dork page can contribute. -/
def dorkPageCap (target : Target) : DorkEvent → Nat
  | .blocksPage blocks _ => (blocks.map (blockCap target)).sum
  | .pageLost => 0

/-- Largest batch a dork run can accept in one iteration. -/
def maxDorkPageCap (target : Target) (events : List DorkEvent) : Nat :=
  (events.map (dorkPageCap target)).foldr max 0

/-- The backoff waits of `retry_on_failure` starting at 0-based attempt
`att`: each of `k` consecutive failed attempts sleeps
`delay * (attempt + 1)` (line 62, `delay * (attempt + 1)` for the 0-based
`attempt`, i.e. delay times the 1-based attempt number). -/
def backoffList (delay : Nat) : Nat → Nat → List Nat
  | _, 0 => []
  | att, k + 1 => delay * (att + 1) :: backoffList delay (att + 1) k

/-- `retry_on_failure` (lines 46-69).  `op i` is the outcome of the wrapped
call on 0-based attempt `i`; `rem` counts the loop iterations left
(`max_retries - attempt`), so the Python sleep guard
`attempt < max_retries - 1` (line 58) is `0 < rem` here.  The result pairs
the list of sleep durations (delays modelled in abstract integral units)
with the final outcome; `error none` is the degenerate `raise None` reached
only when `max_retries = 0`. -/
def retryGo {E A : Type} (op : Nat → Except E A) (delay : Nat) :
    Nat → Nat → Option E → List Nat → List Nat × Except (Option E) A
  | 0, _, last, sleeps => (sleeps.reverse, .error last)
  | rem + 1, att, _, sleeps =>
    match op att with
    | .ok a => (sleeps.reverse, .ok a)
    | .error e =>
      if 0 < rem then
        retryGo op delay rem (att + 1) (some e) (delay * (att + 1) :: sleeps)
      else retryGo op delay rem (att + 1) (some e) sleeps

/-- The decorator applied with `max_retries`/`delay` (lines 46-53). -/
def retry_on_failure {E A : Type} (op : Nat → Except E A)
    (maxRetries delay : Nat) : List Nat × Except (Option E) A :=
  retryGo op delay maxRetries 0 none []

end LeadScraper

namespace LeadScraper

/-! Helper lemmas about `dedupByKey` and the pipeline shape. -/

lemma dedupByKey_key_not_seen {α κ : Type} [DecidableEq κ] (key : α → κ) :
    ∀ (l : List α) (seen : List κ) (a : α),
      a ∈ dedupByKey key l seen → key a ∉ seen := by
  intro l
  induction l with
  | nil => intro seen a ha; simp [dedupByKey] at ha
  | cons r rs ih =>
    intro seen a ha
    rw [dedupByKey] at ha
    by_cases hr : key r ∈ seen
    · rw [if_pos hr] at ha
      exact ih seen a ha
    · rw [if_neg hr] at ha
      rcases List.mem_cons.mp ha with rfl | ha'
      · exact hr
      · have := ih (key r :: seen) a ha'
        exact fun hs => this (List.mem_cons_of_mem _ hs)

lemma dedupByKey_pairwise {α κ : Type} [DecidableEq κ] (key : α → κ) :
    ∀ (l : List α) (seen : List κ),
      (dedupByKey key l seen).Pairwise (fun a b => key a ≠ key b) := by
  intro l
  induction l with
  | nil => intro seen; simp [dedupByKey]
  | cons r rs ih =>
    intro seen
    rw [dedupByKey]
    by_cases hr : key r ∈ seen
    · rw [if_pos hr]; exact ih seen
    · rw [if_neg hr]
      refine List.Pairwise.cons ?_ (ih (key r :: seen))
      intro b hb
      have := dedupByKey_key_not_seen key rs (key r :: seen) b hb
      exact fun he => this (he ▸ List.mem_cons_self _ _)

/-- Unpacking a successful pipeline run: either the input was empty, or the
email column existed and the rows are dedup, contact filter, phone
validation, name filter in that order. -/
lemma process_ok_rows (raw : List RawLead) (out : CleanFrame)
    (h : process_and_clean_data raw = .ok out) :
    (out.rows = []) ∨
    (emailColumnExists raw = true ∧
      out.rows = (((dedupStep raw).filter hasContact).map applyPhone).filter
        (fun r => r.businessName.length > 0)) := by
  unfold process_and_clean_data at h
  by_cases h1 : raw.isEmpty = true
  · left
    rw [if_pos h1] at h
    injection h with h'
    rw [← h']
  · rw [if_neg h1] at h
    by_cases h2 : emailColumnExists raw = true
    · right
      rw [if_pos h2] at h
      injection h with h'
      exact ⟨h2, by rw [← h']⟩
    · rw [if_neg h2] at h
      exact absurd h (by simp)

/-! Theorems for the claims. -/

/-- C10: the empty raw list yields, without any exception, an empty frame
that still carries the full expected field schema. -/
theorem empty_input_full_schema :
    process_and_clean_data [] =
      Except.ok ⟨["Business Name", "Phone Number", "Website", "Address", "Email"], []⟩ := rfl

/-- Closed form of `validate_phone`: the early `""` branch coincides with
the length test failing on an empty stripped list. -/
lemma validate_phone_closed_form (p : String) :
    validate_phone p =
      if 10 ≤ (p.toList.filter phoneKeptChar).length ∧
          (p.toList.filter phoneKeptChar).length ≤ 15 then p else "" := by
  by_cases hp : p = ""
  · subst hp
    simp [validate_phone]
  · simp [validate_phone, hp]

/-- `validate_phone` blanks the empty string. -/
lemma validate_phone_empty : validate_phone "" = "" := rfl

/-- C6: `validate_phone` keeps the original formatted string exactly when the
stripped (digits and plus only) length is between 10 and 15 inclusive and
returns the empty string otherwise; and it is idempotent on every input. -/
theorem validate_phone_spec_and_idempotent (p : String) :
    validate_phone p =
      (if 10 ≤ (p.toList.filter phoneKeptChar).length ∧
          (p.toList.filter phoneKeptChar).length ≤ 15 then p else "") ∧
    validate_phone (validate_phone p) = validate_phone p := by
  refine ⟨validate_phone_closed_form p, ?_⟩
  rw [validate_phone_closed_form p]
  by_cases hlen : 10 ≤ (p.toList.filter phoneKeptChar).length ∧
      (p.toList.filter phoneKeptChar).length ≤ 15
  · rw [if_pos hlen, validate_phone_closed_form p, if_pos hlen]
  · rw [if_neg hlen, validate_phone_empty]

/-- C1 counterexample: two records with distinct non-empty emails but the same
non-empty website both survive the pipeline, so the output does contain two
records with the same non-empty (non-denylisted) website — the claimed
three-key dedup cascade does not happen. -/
theorem c1_single_key_dedup_counterexample :
    rowsOf (process_and_clean_data
        [⟨"A", "", "http://a.com", "", some "x@a.com"⟩,
         ⟨"B", "", "http://a.com", "", some "y@a.com"⟩]) =
      [⟨"A", "", "http://a.com", "", some "x@a.com"⟩,
       ⟨"B", "", "http://a.com", "", some "y@a.com"⟩] ∧
    (⟨"A", "", "http://a.com", "", some "x@a.com"⟩ : RawLead).website =
      (⟨"B", "", "http://a.com", "", some "y@a.com"⟩ : RawLead).website ∧
    (⟨"A", "", "http://a.com", "", some "x@a.com"⟩ : RawLead).website ≠ "" := by
  refine ⟨rfl, rfl, ?_⟩
  decide

/-- C1 amended: the pipeline deduplicates by exactly one key — by the `Email`
value when the email branch is selected, otherwise by the `Website` value —
keeping the first occurrence; the output rows are pairwise distinct in that
single key only. -/
theorem process_dedup_single_key (raw : List RawLead) (out : CleanFrame)
    (h : process_and_clean_data raw = .ok out) :
    (emailBranch raw = true → out.rows.Pairwise (fun a b => a.email ≠ b.email)) ∧
    (emailBranch raw = false → out.rows.Pairwise (fun a b => a.website ≠ b.website)) := by
  rcases process_ok_rows raw out h with hrows | ⟨-, hrows⟩
  · rw [hrows]
    exact ⟨fun _ => List.Pairwise.nil, fun _ => List.Pairwise.nil⟩
  · constructor
    · intro hbr
      rw [hrows]
      have hd : (dedupStep raw).Pairwise (fun a b => a.email ≠ b.email) := by
        rw [dedupStep, if_pos hbr]
        exact dedupByKey_pairwise _ raw []
      have h1 : ((dedupStep raw).filter hasContact).Pairwise
          (fun a b => a.email ≠ b.email) := hd.sublist (List.filter_sublist _)
      have h2 : (((dedupStep raw).filter hasContact).map applyPhone).Pairwise
          (fun a b => a.email ≠ b.email) := by
        rw [List.pairwise_map]
        exact h1
      exact h2.sublist (List.filter_sublist _)
    · intro hbr
      rw [hrows]
      have hd : (dedupStep raw).Pairwise (fun a b => a.website ≠ b.website) := by
        rw [dedupStep, if_neg (by simp [hbr])]
        exact dedupByKey_pairwise _ raw []
      have h1 : ((dedupStep raw).filter hasContact).Pairwise
          (fun a b => a.website ≠ b.website) := hd.sublist (List.filter_sublist _)
      have h2 : (((dedupStep raw).filter hasContact).map applyPhone).Pairwise
          (fun a b => a.website ≠ b.website) := by
        rw [List.pairwise_map]
        exact h1
      exact h2.sublist (List.filter_sublist _)

/-- Witness for the amended C1 theorem at a concrete one-record input. -/
theorem process_dedup_single_key_witness :
    ([(⟨"A", "", "w", "", some "e@x.co"⟩ : RawLead)]).Pairwise
      (fun a b => a.email ≠ b.email) :=
  (process_dedup_single_key [⟨"A", "", "w", "", some "e@x.co"⟩]
    ⟨["Business Name", "Phone Number", "Website", "Address", "Email"],
      [⟨"A", "", "w", "", some "e@x.co"⟩]⟩ rfl).1 rfl

/-- C2 is violated: the contact-presence filter runs before phone
validation, so the record whose only contact field was the invalid phone
"123" survives the pipeline with every contact field blank. -/
theorem contact_filter_runs_before_phone_validation :
    process_and_clean_data [⟨"V", "123", "", "", some ""⟩] =
      .ok ⟨["Business Name", "Phone Number", "Website", "Address", "Email"],
        [⟨"V", "", "", "", some ""⟩]⟩ ∧
    (⟨"V", "", "", "", some ""⟩ : RawLead).phoneNumber = "" ∧
    (⟨"V", "", "", "", some ""⟩ : RawLead).website = "" ∧
    (⟨"V", "", "", "", some ""⟩ : RawLead).email.getD "" = "" :=
  ⟨rfl, rfl, rfl, rfl⟩

/-- C3: every record shape produced by `scrape_listing_details` lacks the
`Email` key, and on any non-empty raw list of such records the pipeline
raises `KeyError` at the `df["Email"]` access instead of returning a
cleaned list. -/
theorem maps_records_raise_keyerror :
    (∀ n p w a, (mkListingLead n p w a).email = none) ∧
    ∀ raw : List RawLead, raw ≠ [] → (∀ r ∈ raw, r.email = none) →
      process_and_clean_data raw = .error "KeyError: Email" := by
  refine ⟨fun n p w a => rfl, fun raw hne hall => ?_⟩
  have h1 : raw.isEmpty = false := by
    cases raw with
    | nil => exact absurd rfl hne
    | cons a l => rfl
  have hcol : emailColumnExists raw = false := by
    rw [emailColumnExists, List.any_eq_false]
    intro r hr
    rw [hall r hr]
    simp
  unfold process_and_clean_data
  rw [if_neg (by simp [h1]), if_neg (by simp [hcol])]

/-- Witness for the C3 theorem at a concrete one-record listing input. -/
theorem maps_records_raise_keyerror_witness :
    process_and_clean_data [mkListingLead "Test" "" "" ""] =
      .error "KeyError: Email" :=
  maps_records_raise_keyerror.2 [mkListingLead "Test" "" "" ""] (by simp)
    (fun r hr => by
      rw [List.mem_singleton] at hr
      rw [hr]
      rfl)

/-! Helper lemmas for the loop bounds (C4). -/

lemma processListings_length_le :
    ∀ (items : List (Option RawLead)) (seen : List String) (acc : List RawLead),
      (processListings seen acc items).2.length ≤ acc.length + items.length := by
  intro items
  induction items with
  | nil => intro seen acc; simp [processListings]
  | cons it rest ih =>
    intro seen acc
    match it with
    | none =>
      rw [processListings]
      calc (processListings seen acc rest).2.length
          ≤ acc.length + rest.length := ih seen acc
        _ ≤ acc.length + (rest.length + 1) := by omega
    | some b =>
      rw [processListings]
      by_cases hname : b.businessName ≠ ""
      · rw [if_pos hname]
        by_cases hseen : strLower (strTrim b.businessName) ∈ seen
        · rw [if_pos hseen]
          calc (processListings seen acc rest).2.length
              ≤ acc.length + rest.length := ih seen acc
            _ ≤ acc.length + (rest.length + 1) := by omega
        · rw [if_neg hseen]
          calc (processListings _ (acc ++ [b]) rest).2.length
              ≤ (acc ++ [b]).length + rest.length := ih _ _
            _ = acc.length + (rest.length + 1) := by simp; omega
      · rw [if_neg hname]
        calc (processListings seen acc rest).2.length
            ≤ acc.length + rest.length := ih seen acc
          _ ≤ acc.length + (rest.length + 1) := by omega

lemma maxPageSize_cons (ev : PageEvent) (evs : List PageEvent) :
    maxPageSize (ev :: evs) = max (pageSize ev) (maxPageSize evs) := rfl

lemma mapsLoop_length_lt (limit : Nat) :
    ∀ (fuel : Nat) (events : List PageEvent) (seen : List String)
      (acc res : List RawLead),
      acc.length < limit → mapsLoop limit fuel events seen acc = .ok res →
      res.length < limit + maxPageSize events := by
  intro fuel
  induction fuel with
  | zero =>
    intro events seen acc res hlt h
    rw [mapsLoop] at h
    injection h with h'
    subst h'
    omega
  | succ fuel ih =>
    intro events seen acc res hlt h
    match events with
    | [] =>
      rw [mapsLoop] at h
      injection h with h'
      subst h'
      omega
    | .pageLost :: evs =>
      rw [mapsLoop] at h
      exact absurd h (by simp)
    | .listings items :: evs =>
      rw [mapsLoop] at h
      by_cases hstop : limit ≤ (processListings seen acc items).2.length
      · rw [if_pos hstop] at h
        injection h with h'
        subst h'
        have hle := processListings_length_le items seen acc
        have hmax : items.length ≤ maxPageSize (PageEvent.listings items :: evs) := by
          rw [maxPageSize_cons]
          exact le_max_left _ _
        simp only [pageSize] at hmax
        omega
      · rw [if_neg hstop] at h
        have := ih evs (processListings seen acc items).1
          (processListings seen acc items).2 res (by omega) h
        have hmax : maxPageSize evs ≤ maxPageSize (PageEvent.listings items :: evs) := by
          rw [maxPageSize_cons]
          exact le_max_right _ _
        omega

lemma processEmailsLoop_length_le (b : DorkBlock) :
    ∀ (es seen : List String) (acc : List RawLead),
      (processEmailsLoop b es seen acc).2.length ≤ acc.length + es.length := by
  intro es
  induction es with
  | nil => intro seen acc; simp [processEmailsLoop]
  | cons e rest ih =>
    intro seen acc
    rw [processEmailsLoop]
    by_cases hc : (!(seen.contains (strLower e)) &&
        !(strEndsWith (strLower e) "@example.com")) = true
    · rw [if_pos hc]
      calc (processEmailsLoop b rest _ (acc ++ [_])).2.length
          ≤ (acc ++ [_]).length + rest.length := ih _ _
        _ ≤ acc.length + (rest.length + 1) := by simp; omega
    · rw [if_neg hc]
      calc (processEmailsLoop b rest seen acc).2.length
          ≤ acc.length + rest.length := ih seen acc
        _ ≤ acc.length + (rest.length + 1) := by omega

lemma processProfileBlock_length_le (b : DorkBlock) (seenP : List String)
    (acc : List RawLead) :
    (processProfileBlock b seenP acc).2.length ≤ acc.length + 1 := by
  cases hb : b.href with
  | none => simp [processProfileBlock, hb]
  | some href =>
    by_cases hv : is_valid_profile_url href = true
    · by_cases hs : href ∈ seenP
      · simp [processProfileBlock, hb, hv, hs]
      · simp [processProfileBlock, hb, hv, hs]
    · simp [processProfileBlock, hb, hv]

lemma processBlocksE_length_le :
    ∀ (blocks : List DorkBlock) (seenE : List String) (acc : List RawLead),
      (processBlocksE seenE acc blocks).2.length ≤
        acc.length + (blocks.map (fun b => b.emails.length)).sum := by
  intro blocks
  induction blocks with
  | nil => intro seenE acc; simp [processBlocksE]
  | cons b rest ih =>
    intro seenE acc
    rw [processBlocksE]
    have h1 : (processEmailBlock b seenE acc).2.length ≤ acc.length + b.emails.length :=
      processEmailsLoop_length_le b b.emails seenE acc
    have h2 := ih (processEmailBlock b seenE acc).1 (processEmailBlock b seenE acc).2
    simp only [List.map_cons, List.sum_cons]
    omega

lemma processBlocksP_length_le :
    ∀ (blocks : List DorkBlock) (seenP : List String) (acc : List RawLead),
      (processBlocksP seenP acc blocks).2.length ≤ acc.length + blocks.length := by
  intro blocks
  induction blocks with
  | nil => intro seenP acc; simp [processBlocksP]
  | cons b rest ih =>
    intro seenP acc
    rw [processBlocksP]
    have h1 := processProfileBlock_length_le b seenP acc
    have h2 := ih (processProfileBlock b seenP acc).1 (processProfileBlock b seenP acc).2
    simp only [List.length_cons]
    omega

lemma sum_blockCap_profile (blocks : List DorkBlock) :
    (blocks.map (blockCap Target.profile)).sum = blocks.length := by
  induction blocks with
  | nil => rfl
  | cons b rest ih =>
    simp only [List.map_cons, List.sum_cons, List.length_cons, ih, blockCap]
    omega

lemma processBlocks_length_le (target : Target) (blocks : List DorkBlock)
    (seenE seenP : List String) (acc : List RawLead) :
    (processBlocks target seenE seenP acc blocks).2.2.length ≤
      acc.length + (blocks.map (blockCap target)).sum := by
  cases target with
  | email =>
    have h := processBlocksE_length_le blocks seenE acc
    have hgoal : (processBlocks Target.email seenE seenP acc blocks).2.2.length =
        (processBlocksE seenE acc blocks).2.length := rfl
    have hcap : (blocks.map (blockCap Target.email)).sum =
        (blocks.map (fun b => b.emails.length)).sum := rfl
    rw [hgoal, hcap]
    exact h
  | profile =>
    have h := processBlocksP_length_le blocks seenP acc
    have hgoal : (processBlocks Target.profile seenE seenP acc blocks).2.2.length =
        (processBlocksP seenP acc blocks).2.length := rfl
    rw [hgoal, sum_blockCap_profile]
    exact h

lemma maxDorkPageCap_cons (target : Target) (ev : DorkEvent) (evs : List DorkEvent) :
    maxDorkPageCap target (ev :: evs) =
      max (dorkPageCap target ev) (maxDorkPageCap target evs) := rfl

lemma dorkLoop_length_lt (limit : Nat) (target : Target) :
    ∀ (fuel : Nat) (events : List DorkEvent) (seenE seenP : List String)
      (acc res : List RawLead),
      acc.length < limit →
      dorkLoop limit target fuel events seenE seenP acc = .ok res →
      res.length < limit + maxDorkPageCap target events := by
  intro fuel
  induction fuel with
  | zero =>
    intro events seenE seenP acc res hlt h
    rw [dorkLoop] at h
    injection h with h'
    subst h'
    omega
  | succ fuel ih =>
    intro events seenE seenP acc res hlt h
    match events with
    | [] =>
      rw [dorkLoop] at h
      injection h with h'
      subst h'
      omega
    | .pageLost :: evs =>
      rw [dorkLoop] at h
      exact absurd h (by simp)
    | .blocksPage blocks advanceOk :: evs =>
      rw [dorkLoop] at h
      have hble := processBlocks_length_le target blocks seenE seenP acc
      have hcap : dorkPageCap target (DorkEvent.blocksPage blocks advanceOk) ≤
          maxDorkPageCap target (DorkEvent.blocksPage blocks advanceOk :: evs) := by
        rw [maxDorkPageCap_cons]
        exact le_max_left _ _
      have hmax : maxDorkPageCap target evs ≤
          maxDorkPageCap target (DorkEvent.blocksPage blocks advanceOk :: evs) := by
        rw [maxDorkPageCap_cons]
        exact le_max_right _ _
      simp only [dorkPageCap] at hcap
      by_cases hstop : limit ≤ (processBlocks target seenE seenP acc blocks).2.2.length
      · rw [if_pos hstop] at h
        injection h with h'
        subst h'
        omega
      · rw [if_neg hstop] at h
        cases advanceOk with
        | true =>
          rw [if_pos rfl] at h
          have := ih evs (processBlocks target seenE seenP acc blocks).1
            (processBlocks target seenE seenP acc blocks).2.1
            (processBlocks target seenE seenP acc blocks).2.2 res (by omega) h
          omega
        | false =>
          rw [if_neg (by decide)] at h
          injection h with h'
          subst h'
          omega

/-- C4 counterexample: with `resultsLimit = 1`, one scroll that finds two
distinct listings ends the run with 2 accumulated Leads — the limit check
runs only after a whole batch, so the final count exceeds `resultsLimit`. -/
theorem results_limit_overshoot_counterexample :
    scrape_google_maps 1 15
        [.listings [some ⟨"A", "", "", "", none⟩, some ⟨"B", "", "", "", none⟩]] =
      .ok [⟨"A", "", "", "", none⟩, ⟨"B", "", "", "", none⟩] ∧
    ¬ (([⟨"A", "", "", "", none⟩, ⟨"B", "", "", "", none⟩] : List RawLead).length ≤ 1) :=
  ⟨rfl, by decide⟩

/-- C4 amended: on every run that returns, the final count is below
`resultsLimit` plus the largest single-iteration batch (the count is below
the limit at the start of every iteration; one batch can push it over). -/
theorem results_limit_overshoot_bound (limit fuel : Nat) (target : Target)
    (mEvents : List PageEvent) (dEvents : List DorkEvent)
    (mRes dRes : List RawLead) (hpos : 0 < limit)
    (hm : scrape_google_maps limit fuel mEvents = .ok mRes)
    (hd : scrape_yahoo_dork limit fuel target dEvents = .ok dRes) :
    mRes.length < limit + maxPageSize mEvents ∧
    dRes.length < limit + maxDorkPageCap target dEvents :=
  ⟨mapsLoop_length_lt limit fuel mEvents [] [] mRes (by simpa using hpos) hm,
   dorkLoop_length_lt limit target fuel dEvents [] [] [] dRes (by simpa using hpos) hd⟩

/-- Witness for the amended C4 theorem at concrete runs. -/
theorem results_limit_overshoot_bound_witness :
    ([(⟨"A", "", "", "", none⟩ : RawLead)] : List RawLead).length <
      2 + maxPageSize [.listings [some ⟨"A", "", "", "", none⟩]] ∧
    ([] : List RawLead).length <
      2 + maxDorkPageCap .email [.blocksPage [] true] :=
  results_limit_overshoot_bound 2 1 .email
    [.listings [some ⟨"A", "", "", "", none⟩]] [.blocksPage [] true]
    [⟨"A", "", "", "", none⟩] [] (by decide) rfl rfl

/-- C8 is violated: a maps run that accumulates two Leads and then loses the
page raises out of the loop (the `page.evaluate` in `human_like_scroll` is
not guarded); `main` catches the exception but `raw_results` keeps its
initial empty value, so the accumulated Leads never reach the Dedup
pipeline — the pipeline step is skipped entirely. -/
theorem page_loss_discards_partial_results :
    scrape_google_maps 100 15
        [.listings [some ⟨"A", "", "http://a.com", "", none⟩],
         .listings [some ⟨"B", "", "http://b.com", "", none⟩]] =
      .ok [⟨"A", "", "http://a.com", "", none⟩, ⟨"B", "", "http://b.com", "", none⟩] ∧
    scrape_google_maps 100 15
        [.listings [some ⟨"A", "", "http://a.com", "", none⟩],
         .listings [some ⟨"B", "", "http://b.com", "", none⟩], .pageLost] =
      .error () ∧
    main_pipeline (scrape_google_maps 100 15
        [.listings [some ⟨"A", "", "http://a.com", "", none⟩],
         .listings [some ⟨"B", "", "http://b.com", "", none⟩], .pageLost]) = none :=
  ⟨rfl, rfl, rfl⟩

/-! C5: email normalization and placeholder filtering. -/

/-- C5 counterexample: in the email-target branch the stored email is the
raw regex match, not its lowercase normalization. -/
theorem email_not_lowercased_counterexample :
    (processEmailBlock ⟨["Foo@Company.co"], [], none, none⟩ [] []).2 =
      [⟨"", "", "", "", some "Foo@Company.co"⟩] ∧
    strLower "Foo@Company.co" = "foo@company.co" ∧
    ("Foo@Company.co" : String) ≠ "foo@company.co" := by
  refine ⟨rfl, rfl, ?_⟩
  decide

lemma processEmailsLoop_mem (b : DorkBlock) :
    ∀ (es seen : List String) (acc : List RawLead) (r : RawLead),
      r ∈ (processEmailsLoop b es seen acc).2 →
      r ∈ acc ∨ ∃ e, e ∈ es ∧ r.email = some e ∧
        strEndsWith (strLower e) "@example.com" = false := by
  intro es
  induction es with
  | nil =>
    intro seen acc r hr
    rw [processEmailsLoop] at hr
    exact Or.inl hr
  | cons e rest ih =>
    intro seen acc r hr
    rw [processEmailsLoop] at hr
    by_cases hc : (!(seen.contains (strLower e)) &&
        !(strEndsWith (strLower e) "@example.com")) = true
    · rw [if_pos hc] at hr
      rcases ih _ _ r hr with hacc | ⟨e', he', hmail, hph⟩
      · rcases List.mem_append.mp hacc with h1 | h2
        · exact Or.inl h1
        · rw [List.mem_singleton] at h2
          subst h2
          refine Or.inr ⟨e, List.mem_cons_self _ _, rfl, ?_⟩
          have := (Bool.and_eq_true _ _).mp hc
          exact Bool.not_eq_true' .. |>.mp this.2
      · exact Or.inr ⟨e', List.mem_cons_of_mem _ he', hmail, hph⟩
    · rw [if_neg hc] at hr
      rcases ih seen acc r hr with hacc | ⟨e', he', hmail, hph⟩
      · exact Or.inl hacc
      · exact Or.inr ⟨e', List.mem_cons_of_mem _ he', hmail, hph⟩

lemma profileEmail_lowercase_and_non_placeholder :
    ∀ es : List String,
      (profileEmail es = "" ∨ ∃ e, e ∈ es ∧ profileEmail es = strLower e) ∧
      strEndsWith (profileEmail es) "@example.com" = false := by
  intro es
  induction es with
  | nil => exact ⟨Or.inl rfl, by decide⟩
  | cons e rest ih =>
    rw [profileEmail]
    by_cases hc : (!(strEndsWith (strLower e) "@example.com")) = true
    · rw [if_pos hc]
      exact ⟨Or.inr ⟨e, List.mem_cons_self _ _, rfl⟩, Bool.not_eq_true' .. |>.mp hc⟩
    · rw [if_neg hc]
      rcases ih with ⟨h1, h2⟩
      refine ⟨?_, h2⟩
      rcases h1 with h | ⟨e', he', heq⟩
      · exact Or.inl h
      · exact Or.inr ⟨e', List.mem_cons_of_mem _ he', heq⟩

/-- C5 amended: in the email-target branch every record the block handler
adds stores the raw matched candidate whose lowercase form does not end in
the placeholder domain (lowercasing is applied only to the checks, not the
stored value); in the profile-target branch the stored email is the
lowercase form of some candidate (or empty) and never ends in the
placeholder domain; the candidate "foo@example.com" is never retained while
"bar@company.co" is retained. -/
theorem email_retention_amended :
    (∀ (b : DorkBlock) (seen : List String) (acc : List RawLead) (r : RawLead),
        r ∈ (processEmailBlock b seen acc).2 →
        r ∈ acc ∨ ∃ e, e ∈ b.emails ∧ r.email = some e ∧
          strEndsWith (strLower e) "@example.com" = false) ∧
    (∀ es : List String,
        (profileEmail es = "" ∨ ∃ e, e ∈ es ∧ profileEmail es = strLower e) ∧
        strEndsWith (profileEmail es) "@example.com" = false) ∧
    ((processEmailBlock ⟨["foo@example.com", "bar@company.co"], [], none, none⟩
        [] []).2.map (fun r => r.email) = [some "bar@company.co"]) :=
  ⟨fun b seen acc r hr => processEmailsLoop_mem b b.emails seen acc r hr,
   profileEmail_lowercase_and_non_placeholder, rfl⟩

/-- Witness for the amended C5 theorem at a concrete block. -/
theorem email_retention_amended_witness :
    (⟨"", "", "", "", some "X@Y.co"⟩ : RawLead) ∈ ([] : List RawLead) ∨
    ∃ e, e ∈ ["X@Y.co"] ∧
      (⟨"", "", "", "", some "X@Y.co"⟩ : RawLead).email = some e ∧
      strEndsWith (strLower e) "@example.com" = false :=
  email_retention_amended.1 ⟨["X@Y.co"], [], none, none⟩ [] []
    ⟨"", "", "", "", some "X@Y.co"⟩ (by decide)

/-! C7: the profile-URL validator. -/

lemma takeWhile_append_all (p : Char → Bool) :
    ∀ (a b : List Char), (∀ c ∈ a, p c = true) →
      (a ++ b).takeWhile p = a ++ b.takeWhile p := by
  intro a
  induction a with
  | nil => intro b _; simp
  | cons c t ih =>
    intro b h
    have hc : p c = true := h c (List.mem_cons_self _ _)
    simp [List.takeWhile_cons, hc,
      ih b (fun x hx => h x (List.mem_cons_of_mem _ hx))]

lemma dropWhile_append_all (p : Char → Bool) :
    ∀ (a b : List Char), (∀ c ∈ a, p c = true) →
      (a ++ b).dropWhile p = b.dropWhile p := by
  intro a
  induction a with
  | nil => intro b _; simp
  | cons c t ih =>
    intro b h
    have hc : p c = true := h c (List.mem_cons_self _ _)
    simp [List.dropWhile_cons, hc,
      ih b (fun x hx => h x (List.mem_cons_of_mem _ hx))]

lemma usernameRest_append_run (l : List Char) :
    usernameRest l ++ usernameRun l = l := by
  rw [usernameRun, usernameRest, ← List.reverse_append,
    List.takeWhile_append_dropWhile, List.reverse_reverse]

lemma usernameRun_all (l : List Char) :
    ∀ c ∈ usernameRun l, usernameChar c = true := by
  intro c hc
  rw [usernameRun, List.mem_reverse] at hc
  exact List.mem_takeWhile_imp hc

lemma usernameRun_decomp (x u : List Char)
    (hall : ∀ c ∈ u, usernameChar c = true) :
    usernameRun (x ++ '/' :: u) = u ∧
    usernameRest (x ++ '/' :: u) = x ++ ['/'] := by
  have hall' : ∀ c ∈ u.reverse, usernameChar c = true :=
    fun c hc => hall c (List.mem_reverse.mp hc)
  have hslash : usernameChar '/' = false := by decide
  have hrev : (x ++ '/' :: u).reverse = u.reverse ++ '/' :: x.reverse := by
    simp
  constructor
  · rw [usernameRun, hrev, takeWhile_append_all _ _ _ hall',
      List.takeWhile_cons, hslash]
    simp
  · rw [usernameRest, hrev, dropWhile_append_all _ _ _ hall',
      List.dropWhile_cons, hslash]
    simp

lemma stripSlash_concat (t : List Char) : stripSlash (t ++ ['/']) = t := by
  rw [stripSlash, if_pos (decide_eq_true ⟨t, rfl⟩), List.dropLast_concat]

lemma stripSlash_of_not_slash (l : List Char) (h : ¬ (['/'] <:+ l)) :
    stripSlash l = l := by
  rw [stripSlash, if_neg (by simpa using h)]

lemma no_trailing_slash_of_username_suffix (L x u : List Char)
    (hall : ∀ c ∈ u, usernameChar c = true) (hne : u ≠ [])
    (hL : L = x ++ '/' :: u) : ¬ (['/'] <:+ L) := by
  intro hsuf
  obtain ⟨t, ht⟩ := hsuf
  rcases List.eq_nil_or_concat u with h | ⟨u', c, hu⟩
  · exact hne h
  rw [List.concat_eq_append] at hu
  have hc : usernameChar c = true := by
    refine hall c ?_
    rw [hu]
    exact List.mem_append_right _ (List.mem_singleton_self c)
  have h1 : L.getLast? = some '/' := by
    rw [← ht]
    exact List.getLast?_concat _
  have h2 : L.getLast? = some c := by
    rw [hL, hu, show x ++ '/' :: (u' ++ [c]) = (x ++ '/' :: u') ++ [c] by simp]
    exact List.getLast?_concat _
  rw [h1] at h2
  injection h2 with h3
  rw [← h3] at hc
  exact absurd hc (by decide)

lemma instaUsernameL_sound (L u : List Char) (h : instaUsernameL L = some u) :
    (∀ c ∈ u, usernameChar c = true) ∧ u ≠ [] ∧
    (("instagram.com/".toList ++ u) <:+ L ∨
     ("instagram.com/".toList ++ u ++ ['/']) <:+ L) := by
  rw [instaUsernameL] at h
  split at h
  next hcond =>
    obtain ⟨hne, hsuf⟩ := hcond
    injection h with h'
    obtain ⟨x, hx⟩ := of_decide_eq_true hsuf
    have hdecomp : stripSlash L = x ++ "instagram.com/".toList ++ u := by
      conv_lhs => rw [← usernameRest_append_run (stripSlash L)]
      rw [← hx, h', List.append_assoc]
    have hall : ∀ c ∈ u, usernameChar c = true := by
      rw [← h']
      exact usernameRun_all _
    have hneu : u ≠ [] := by
      rw [← h']
      exact hne
    refine ⟨hall, hneu, ?_⟩
    by_cases hsl : ['/'] <:+ L
    · obtain ⟨t, ht⟩ := hsl
      have hstrip : stripSlash L = t := by
        rw [← ht, stripSlash_concat]
      have ht2 : t = x ++ "instagram.com/".toList ++ u := by
        rw [← hstrip, hdecomp]
      right
      refine ⟨x, ?_⟩
      rw [← ht, ht2]
      simp
    · have hstrip : stripSlash L = L := stripSlash_of_not_slash L hsl
      left
      refine ⟨x, ?_⟩
      rw [← hstrip, hdecomp]
      simp
  next => exact absurd h (by simp)

lemma instaUsernameL_core (l x u : List Char)
    (hall : ∀ c ∈ u, usernameChar c = true) (hne : u ≠ [])
    (hl : stripSlash l = (x ++ "instagram.com".toList) ++ '/' :: u) :
    instaUsernameL l = some u := by
  obtain ⟨hrun, hrest⟩ := usernameRun_decomp (x ++ "instagram.com".toList) u hall
  rw [instaUsernameL, hl, hrun, hrest]
  rw [if_pos ⟨hne, decide_eq_true ⟨x, by simp⟩⟩]

lemma instaUsernameL_complete (L u : List Char)
    (hall : ∀ c ∈ u, usernameChar c = true) (hne : u ≠ [])
    (h : ("instagram.com/".toList ++ u) <:+ L ∨
         ("instagram.com/".toList ++ u ++ ['/']) <:+ L) :
    instaUsernameL L = some u := by
  rcases h with ⟨x, hx⟩ | ⟨x, hx⟩
  · have hL : L = (x ++ "instagram.com".toList) ++ '/' :: u := by
      rw [← hx]
      simp
    have hnsl : ¬ (['/'] <:+ L) :=
      no_trailing_slash_of_username_suffix L (x ++ "instagram.com".toList) u
        hall hne hL
    exact instaUsernameL_core L x u hall hne
      (by rw [stripSlash_of_not_slash L hnsl, hL])
  · have hL : L = ((x ++ "instagram.com".toList) ++ '/' :: u) ++ ['/'] := by
      rw [← hx]
      simp
    exact instaUsernameL_core L x u hall hne (by rw [hL, stripSlash_concat])

lemma is_valid_profile_url_insta (url : String) (hne : url ≠ "")
    (hfb : (strContains (strLower url) "facebook.com" ||
        strContains (strLower url) "fb.com") = false)
    (hin : strContains (strLower url) "instagram.com" = true)
    (hdeny : instaInvalid.any (fun pat => strContains (strLower url) pat)
        = false) :
    is_valid_profile_url url =
      match instaUsernameL (strLower url).toList with
      | some u => if 2 < u.length ∧ (u.contains '/') = false then true
                  else false
      | none => false := by
  rw [is_valid_profile_url, if_neg hne, if_neg (by simp [hfb]), if_pos hin,
    if_neg (by simp [hdeny])]

/-- C7 counterexample: the validator the claim describes (query parameters
stripped before the shape check) accepts this username URL carrying a query
string; the code's validator rejects it because nothing strips the query
and the regex is anchored at the end of the URL. -/
theorem profile_url_query_counterexample :
    claim_profile_accept "https://www.instagram.com/johndoe123?igshid=abc"
      = true ∧
    is_valid_profile_url "https://www.instagram.com/johndoe123?igshid=abc"
      = false := by
  constructor <;> decide

/-- C7 amended: the validator rejects any facebook-classified URL with a
denylisted substring and any non-facebook URL with an instagram-denylisted
substring; for a non-empty, denylist-free, non-facebook URL it accepts
exactly the URLs whose lowercase form ends in `instagram.com/` followed by
one segment of username characters of length at least 3 (with one optional
trailing slash) — query parameters are not stripped, so a username URL
followed by a query string is rejected.  It rejects `.../accounts/login`
and accepts `.../johndoe123`. -/
theorem profile_url_validator_amended :
    (∀ url : String,
        (strContains (strLower url) "facebook.com" ||
          strContains (strLower url) "fb.com") = true →
        fbInvalid.any (fun x => strContains (strLower url) x) = true →
        is_valid_profile_url url = false) ∧
    (∀ url : String,
        (strContains (strLower url) "facebook.com" ||
          strContains (strLower url) "fb.com") = false →
        instaInvalid.any (fun pat => strContains (strLower url) pat) = true →
        is_valid_profile_url url = false) ∧
    (∀ url : String, url ≠ "" →
        (strContains (strLower url) "facebook.com" ||
          strContains (strLower url) "fb.com") = false →
        instaInvalid.any (fun pat => strContains (strLower url) pat) = false →
        (is_valid_profile_url url = true ↔
          ∃ u : List Char, (∀ c ∈ u, usernameChar c = true) ∧ 3 ≤ u.length ∧
            (("instagram.com/".toList ++ u) <:+ (strLower url).toList ∨
             ("instagram.com/".toList ++ u ++ ['/']) <:+
               (strLower url).toList))) ∧
    (is_valid_profile_url "https://www.instagram.com/accounts/login" = false ∧
     is_valid_profile_url "https://www.instagram.com/johndoe123" = true) := by
  refine ⟨?_, ?_, ?_, by decide, by decide⟩
  · intro url hfbT hhit
    by_cases hemp : url = ""
    · rw [is_valid_profile_url, if_pos hemp]
    · rw [is_valid_profile_url, if_neg hemp, if_pos hfbT, hhit]
      rfl
  · intro url hfbF hhit
    by_cases hemp : url = ""
    · rw [is_valid_profile_url, if_pos hemp]
    · rw [is_valid_profile_url, if_neg hemp, if_neg (by simp [hfbF])]
      by_cases hin : strContains (strLower url) "instagram.com" = true
      · rw [if_pos hin, if_pos hhit]
      · rw [if_neg hin]
  · intro url hne hfb hdeny
    by_cases hin : strContains (strLower url) "instagram.com" = true
    · rw [is_valid_profile_url_insta url hne hfb hin hdeny]
      constructor
      · intro hv
        cases hm : instaUsernameL (strLower url).toList with
        | none =>
          rw [hm] at hv
          simp at hv
        | some u =>
          rw [hm] at hv
          simp only [] at hv
          split at hv
          next hcond =>
            obtain ⟨hlen, -⟩ := hcond
            obtain ⟨hall, -, hsuf⟩ := instaUsernameL_sound _ u hm
            exact ⟨u, hall, by omega, hsuf⟩
          next => exact absurd hv (by simp)
      · rintro ⟨u, hall, hlen, hsuf⟩
        have hm := instaUsernameL_complete (strLower url).toList u hall
          (by
            intro hnil
            rw [hnil] at hlen
            simp at hlen) hsuf
        simp only [hm]
        have hcont : u.contains '/' = false := by
          by_cases hcc : u.contains '/' = true
          · have hmem : ('/' : Char) ∈ u := by simpa using hcc
            exact absurd (hall '/' hmem) (by decide)
          · simpa using hcc
        rw [if_pos ⟨by omega, hcont⟩]
    · have hval : is_valid_profile_url url = false := by
        by_cases hemp : url = ""
        · rw [is_valid_profile_url, if_pos hemp]
        · rw [is_valid_profile_url, if_neg hemp, if_neg (by simp [hfb]),
            if_neg hin]
      rw [hval]
      constructor
      · intro hfalse
        exact absurd hfalse (by simp)
      · rintro ⟨u, hall, hlen, hsuf⟩
        exfalso
        apply hin
        have hinf : "instagram.com".toList <:+: (strLower url).toList := by
          rcases hsuf with ⟨x, hx⟩ | ⟨x, hx⟩
          · exact ⟨x, '/' :: u, by rw [← hx]; simp⟩
          · exact ⟨x, '/' :: (u ++ ['/']), by rw [← hx]; simp⟩
        rw [strContains]
        exact decide_eq_true hinf

/-- Witness for the amended C7 theorem: a denylisted instagram URL is
rejected. -/
theorem profile_url_validator_amended_witness :
    is_valid_profile_url "https://instagram.com/help/someone" = false :=
  profile_url_validator_amended.2.1 "https://instagram.com/help/someone"
    (by decide) (by decide)

/-! C9: the retry wrapper. -/

lemma backoffList_eq_range (delay : Nat) :
    ∀ (k att : Nat), backoffList delay att k =
      (List.range k).map (fun i => delay * (att + i + 1)) := by
  intro k
  induction k with
  | zero => intro att; rfl
  | succ k ih =>
    intro att
    rw [backoffList, ih (att + 1), List.range_succ_eq_map, List.map_cons,
      List.map_map]
    simp only [Function.comp, Nat.add_zero]
    congr 1
    exact List.map_congr_left (fun i _ => by congr 1; omega)

lemma retryGo_ok_step {E A : Type} (op : Nat → Except E A)
    (delay rem att : Nat) (last : Option E) (sleeps : List Nat) (a : A)
    (he : op att = .ok a) :
    retryGo op delay (rem + 1) att last sleeps = (sleeps.reverse, .ok a) := by
  simp only [retryGo, he]

lemma retryGo_error_step {E A : Type} (op : Nat → Except E A)
    (delay rem att : Nat) (last : Option E) (sleeps : List Nat) (e : E)
    (he : op att = .error e) :
    retryGo op delay (rem + 1) att last sleeps =
      if 0 < rem then
        retryGo op delay rem (att + 1) (some e) (delay * (att + 1) :: sleeps)
      else retryGo op delay rem (att + 1) (some e) sleeps := by
  simp only [retryGo, he]

lemma retryGo_ok {E A : Type} (op : Nat → Except E A) (delay : Nat) :
    ∀ (k att rem : Nat) (last : Option E) (sleeps : List Nat) (a : A),
      (∀ i, i < k → ∃ e, op (att + i) = .error e) →
      op (att + k) = .ok a → k < rem →
      retryGo op delay rem att last sleeps =
        (sleeps.reverse ++ backoffList delay att k, .ok a) := by
  intro k
  induction k with
  | zero =>
    intro att rem last sleeps a _ hok hlt
    cases rem with
    | zero => omega
    | succ r =>
      rw [Nat.add_zero] at hok
      rw [retryGo_ok_step op delay r att last sleeps a hok]
      simp [backoffList]
  | succ k ih =>
    intro att rem last sleeps a hfail hok hlt
    cases rem with
    | zero => omega
    | succ r =>
      obtain ⟨e, he⟩ := hfail 0 (Nat.succ_pos k)
      rw [Nat.add_zero] at he
      rw [retryGo_error_step op delay r att last sleeps e he]
      rw [if_pos (by omega)]
      have hfail' : ∀ i, i < k → ∃ e, op (att + 1 + i) = .error e := by
        intro i hi
        obtain ⟨e', he'⟩ := hfail (i + 1) (by omega)
        exact ⟨e', by rw [show att + 1 + i = att + (i + 1) by omega]; exact he'⟩
      have hok' : op (att + 1 + k) = .ok a := by
        rw [show att + 1 + k = att + (k + 1) by omega]
        exact hok
      rw [ih (att + 1) r (some e) (delay * (att + 1) :: sleeps) a hfail' hok'
        (by omega)]
      rw [backoffList]
      simp [List.reverse_cons, List.append_assoc]

lemma retryGo_exhaust {E A : Type} (op : Nat → Except E A) (delay : Nat) :
    ∀ (r att : Nat) (last : Option E) (sleeps : List Nat),
      (∀ i, i < r + 1 → ∃ e, op (att + i) = .error e) →
      ∃ e, op (att + r) = .error e ∧
        retryGo op delay (r + 1) att last sleeps =
          (sleeps.reverse ++ backoffList delay att r, .error (some e)) := by
  intro r
  induction r with
  | zero =>
    intro att last sleeps hfail
    obtain ⟨e, he⟩ := hfail 0 (by omega)
    rw [Nat.add_zero] at he
    refine ⟨e, by simpa using he, ?_⟩
    rw [retryGo_error_step op delay 0 att last sleeps e he]
    rw [if_neg (by omega)]
    simp [retryGo, backoffList]
  | succ r ih =>
    intro att last sleeps hfail
    obtain ⟨e0, he0⟩ := hfail 0 (by omega)
    rw [Nat.add_zero] at he0
    have hfail' : ∀ i, i < r + 1 → ∃ e, op (att + 1 + i) = .error e := by
      intro i hi
      obtain ⟨e', he'⟩ := hfail (i + 1) (by omega)
      exact ⟨e', by rw [show att + 1 + i = att + (i + 1) by omega]; exact he'⟩
    obtain ⟨e, he, heq⟩ := ih (att + 1) (some e0) (delay * (att + 1) :: sleeps)
      hfail'
    refine ⟨e, by rw [show att + (r + 1) = att + 1 + r by omega]; exact he, ?_⟩
    rw [retryGo_error_step op delay (r + 1) att last sleeps e0 he0]
    rw [if_pos (by omega)]
    rw [heq, backoffList]
    simp [List.reverse_cons, List.append_assoc]

/-- C9: the retry wrapper returns the operation's result on the first
successful attempt; each failed attempt before the last sleeps
`delay * (1-based attempt number)` and the next attempt runs, with at most
`maxRetries` attempts in total; when every attempt fails, the failure of
the last attempt is raised to the caller. -/
theorem retry_on_failure_contract {E A : Type} (op : Nat → Except E A)
    (maxRetries delay : Nat) :
    (∀ (k : Nat) (a : A), k < maxRetries →
        (∀ i, i < k → ∃ e, op i = .error e) → op k = .ok a →
        retry_on_failure op maxRetries delay =
          ((List.range k).map (fun i => delay * (i + 1)), .ok a)) ∧
    (0 < maxRetries →
        (∀ i, i < maxRetries → ∃ e, op i = .error e) →
        ∃ e, op (maxRetries - 1) = .error e ∧
          retry_on_failure op maxRetries delay =
            ((List.range (maxRetries - 1)).map (fun i => delay * (i + 1)),
             .error (some e))) := by
  constructor
  · intro k a hk hfail hok
    have h := retryGo_ok op delay k 0 maxRetries none [] a
      (fun i hi => by simpa using hfail i hi)
      (by simpa using hok) hk
    rw [retry_on_failure, h, backoffList_eq_range]
    simp [Nat.zero_add]
  · intro hpos hfail
    obtain ⟨r, hr⟩ : ∃ r, maxRetries = r + 1 := ⟨maxRetries - 1, by omega⟩
    subst hr
    obtain ⟨e, he, heq⟩ := retryGo_exhaust op delay r 0 none []
      (fun i hi => by simpa using hfail i (by omega))
    refine ⟨e, by simpa using he, ?_⟩
    rw [retry_on_failure, heq, backoffList_eq_range]
    simp [Nat.zero_add]

/-- Witness for the C9 theorem: a concrete operation failing once then
succeeding, run with maxRetries = 2 and delay unit 5 — one backoff sleep of
5 * 1, then the success value. -/
theorem retry_on_failure_contract_witness :
    retry_on_failure
        (fun i => if i = 0 then Except.error "boom" else Except.ok (42 : Nat))
        2 5 =
      ((List.range 1).map (fun i => 5 * (i + 1)), .ok 42) :=
  (retry_on_failure_contract
      (fun i => if i = 0 then Except.error "boom" else Except.ok (42 : Nat))
      2 5).1 1 42 (by omega)
    (fun i hi => ⟨"boom", by
      have h0 : i = 0 := by omega
      subst h0
      rfl⟩)
    rfl

end LeadScraper
